import Mathlib

/-!
Shallow embedding of the `eip712` Python package (`src/eip712/__init__.py`)
and proofs about it.

Modelling conventions:
* Python byte strings and the outputs of the two opaque collaborators
  (the keccak hash function and the `eth_abi` encoder) are modelled by the
  free term algebra `B`: `B.keccak` and `B.abi` are free constructors, so
  two symbolic byte strings are equal exactly when the code built them the
  same way.  This mirrors the spec, which treats both collaborators as
  opaque primitives.
* Python dictionaries are modelled as association lists with first-match
  lookup (`List.lookup`); the dictionaries the code builds have unique keys.
* Python exceptions are modelled with `Except Err`.
* The recursion of `encode_data`/`_encode_field` is bounded by an explicit
  fuel parameter so that every definition is a computable structural
  recursion; the public wrapper `encode_data` supplies a fuel bound that is
  far larger than the recursion depth the Python code can reach on the
  given input (each nesting step descends into a structurally smaller
  value, so the depth is bounded by the value's size times the width of
  the widest field list).
-/

namespace EIP712

mutual

/-- Python values as they appear in a typed-data `Record`: `None`, text
strings, numbers, booleans, byte strings, lists, and nested dicts.
Lists and dicts are given as a mutual family (rather than nested `List`)
so that structural recursion over values reduces inside the kernel. -/
inductive Value where
  | null : Value
  | str : String → Value
  | num : Int → Value
  | bool : Bool → Value
  | bytes : List Nat → Value
  | arr : ValueList → Value
  | record : RecordFields → Value

/-- A Python list of values. -/
inductive ValueList where
  | nil : ValueList
  | cons : Value → ValueList → ValueList

/-- A Python dict from field names to values (unique keys). -/
inductive RecordFields where
  | nil : RecordFields
  | cons : String → Value → RecordFields → RecordFields

end

/-- Conversion helper for writing list values. -/
def vlist : List Value → ValueList
  | [] => .nil
  | v :: r => .cons v (vlist r)

/-- Conversion helper for writing record values. -/
def vrec : List (String × Value) → RecordFields
  | [] => .nil
  | (k, v) :: r => .cons k v (vrec r)

/-- Python `data[key]` on a record dict (unique keys, so first match). -/
def recLookup : RecordFields → String → Option Value
  | .nil, _ => none
  | .cons k v rest, key => if k = key then some v else recLookup rest key

mutual

/-- Structural size of a value (used only for the fuel bound). -/
def vsize : Value → Nat
  | .null => 1
  | .str _ => 1
  | .num _ => 1
  | .bool _ => 1
  | .bytes _ => 1
  | .arr vs => 1 + vsizeL vs
  | .record fs => 1 + vsizeR fs

/-- Structural size of a value list. -/
def vsizeL : ValueList → Nat
  | .nil => 1
  | .cons v rest => 1 + vsize v + vsizeL rest

/-- Structural size of a record. -/
def vsizeR : RecordFields → Nat
  | .nil => 1
  | .cons _ v rest => 1 + vsize v + vsizeR rest

end

/-- One field descriptor `{'name': ..., 'type': ...}` of a composite type. -/
structure Field where
  name : String
  type : String
deriving DecidableEq

/-- The `types` dictionary: type name to ordered field list. -/
abbrev TypeSet := List (String × List Field)

/-- Symbolic byte strings.  `keccak` and `abi` model the two opaque
collaborators (`eth_utils.keccak` and `eth_abi.encode`); `utf8` models
`str.encode('utf-8')`; `pyval` models a Python value handed to the ABI
encoder unchanged; `cat` models `b''.join(...)`. -/
inductive B where
  | lit : List Nat → B
  | utf8 : String → B
  | keccak : B → B
  | abi : List String → List B → B
  | pyval : Value → B
  | cat : List B → B

/-- Errors raised by the Python code: `KeyError` from dict subscription,
the two explicit `raise Exception(...)` sites, `TypeError`-like failures
from using a value at the wrong Python type, `ValueError` from `int()`,
and fuel exhaustion of the bounded embedding (never hit by the wrapper's
bound on any input the Python code terminates on). -/
inductive Err where
  | keyError : String → Err
  | missingValue : String → Err
  | noTypeDef : String → Err
  | typeError : String → Err
  | valueError : String → Err
  | fuel : Err
deriving DecidableEq

/-- Word character in the sense of the regex `\w` (ASCII fragment):
letters, digits, underscore. -/
def isWordChar (c : Char) : Bool :=
  c.isAlphanum || c == '_'

/-- Python `re.split(r'\W', s)[0]`: the longest word-character prefix.
Implemented on the character list so that it reduces in the kernel
(`String.takeWhile` does not). -/
def stripType (s : String) : String :=
  ⟨s.data.takeWhile isWordChar⟩

/-- Python `types.get(name)` collapsed through truthiness: an absent key
and an empty field list are both "falsy" and both yield `[]`. -/
def fieldsOf (types : TypeSet) (name : String) : List Field :=
  (List.lookup name types).getD []

/-- One step of the depth-first dependency walk
(`find_type_dependencies`), with explicit fuel.  The Python function
mutates `results` in place, so the inner
`for dep in deps: if dep not in results: results.append(dep)` loop is a
no-op (`deps` is the very same list object as `results`); the faithful
functional translation is therefore plain accumulator threading. -/
def ftdFuel (types : TypeSet) : Nat → String → List String → List String
  | 0, _, results => results
  | fuel + 1, primary, results =>
    let p := stripType primary
    if p ∈ results ∨ fieldsOf types p = [] then results
    else
      (fieldsOf types p).foldl (fun acc fd => ftdFuel types fuel fd.type acc)
        (results ++ [p])

/-- `find_type_dependencies(primary_type, types)`.  The fuel
`types.length + 1` bounds the recursion depth of the Python function:
every nested call that recurses first appends a fresh key of `types` to
`results`, so at most `types.length` nested recursing calls can occur. -/
def find_type_dependencies (primary : String) (types : TypeSet) : List String :=
  ftdFuel types (types.length + 1) primary []

/-- Message of `raise Exception(f"No type definition specified: {type}")`.
The f-string interpolates the Python *builtin* `type` (a typo for `typ`),
so the message always shows the class object, never the type name. -/
def msgNoTypeDef : String := "No type definition specified: <class 'type'>"

/-- Python `sep.join(parts)` (kernel-reducible replacement for
`String.intercalate`). -/
def joinSep (sep : String) : List String → String
  | [] => ""
  | [s] => s
  | s :: rest => s ++ sep ++ joinSep sep rest

/-- Field-declaration list `','.join([f"{t['type']} {t['name']}" ...])`. -/
def typeDefStr (fs : List Field) : String :=
  joinSep "," (fs.map fun f => f.type ++ " " ++ f.name)

/-- Lexicographic (code-point) order on strings, as Python's `sorted`
compares them.  Stated through the character lists so that the decision
procedure reduces in the kernel; it is propositionally the same order as
Mathlib's `≤` on `String` (see `pyStrLe_iff_le`). -/
def pyStrLe (a b : String) : Prop := ¬ List.Lex (· < ·) b.data a.data

instance : DecidableRel pyStrLe :=
  fun a b =>
    @instDecidableNot _ (List.Lex.decidableRel (· < ·) b.data a.data)

/-- The `for typ in deps` loop body of `encode_type`: look each type up
(`types[typ]` raises `KeyError` when absent), fail on an empty field list,
and append `typ + '(' + ','.join(defs) + ')'`. -/
def encodeTypeLoop (types : TypeSet) : List String → Except Err String
  | [] => .ok ""
  | typ :: rest =>
    match List.lookup typ types with
    | none => .error (.keyError typ)
    | some children =>
      if children = [] then .error (.noTypeDef msgNoTypeDef)
      else do
        let r ← encodeTypeLoop types rest
        .ok (typ ++ "(" ++ typeDefStr children ++ ")" ++ r)

/-- `encode_type(primary_type, types)`: dependencies minus the primary
type, sorted (Python `sorted` on strings is lexicographic by code point),
with the primary type put back in front. -/
def encode_type (primary : String) (types : TypeSet) : Except Err String :=
  let deps0 := find_type_dependencies primary types
  let deps := List.insertionSort pyStrLe
    (deps0.filter (fun d => d ≠ primary))
  encodeTypeLoop types (primary :: deps)

/-- `hash_type(primary_type, types)`: keccak of the UTF-8 bytes of the
canonical type string (`keccak(text=...)`). -/
def hash_type (primary : String) (types : TypeSet) : Except Err B :=
  (encode_type primary types).map (fun s => B.keccak (B.utf8 s))

/-- Literal `'0x0000000000000000000000000000000000000000000000000000000000000000'`
that `_encode_field` substitutes for a `None`-valued nested record.  Note
that the Python code returns this *text string*, not a bytes object. -/
def zeroHex32 : String :=
  "0x0000000000000000000000000000000000000000000000000000000000000000"

/-- Message of `raise Exception(f"Missing value for field {name} of type {type}")`.
As in `encode_type`, the f-string interpolates the Python builtin `type`
(a typo for `typ`), so the declared type never appears in the message. -/
def missingValueMsg (name : String) : String :=
  "Missing value for field " ++ name ++ " of type <class 'type'>"

/-- One insertion into a Python dict built by `dict(pairs)`: an existing
key keeps its position but takes the new value, a new key is appended. -/
def dictInsert (acc : List (String × B)) (p : String × B) : List (String × B) :=
  if acc.any (fun q => q.1 == p.1) then
    acc.map (fun q => if q.1 == p.1 then (q.1, p.2) else q)
  else acc ++ [p]

/-- Python `dict(pairs)`: first-insertion key order, last value wins.
This models the `type_value_pairs = dict([...])` line of the array
branch: because every pair produced for a homogeneous array carries the
same ABI type string as its key, the dict collapses to one entry. -/
def dictOf (ps : List (String × B)) : List (String × B) :=
  ps.foldl dictInsert []

/-- Python `re.search(r'^u?int(\d+)$', typ)`: an optional `u`, then
`int`, then one or more digits, nothing else. -/
def matchIntType (t : String) : Bool :=
  let ds :=
    if t.data.take 4 = ['u', 'i', 'n', 't'] then t.data.drop 4
    else if t.data.take 3 = ['i', 'n', 't'] then t.data.drop 3
    else []
  !ds.isEmpty && ds.all Char.isDigit

/-- Decimal value of a digit list. -/
def digitsToNat (ds : List Char) : Nat :=
  ds.foldl (fun n c => n * 10 + (c.toNat - 48)) 0

/-- Python `int(s)` on a decimal string: an optional sign followed by at
least one digit (whitespace and underscore tolerance of CPython is not
modelled); anything else raises `ValueError`. -/
def pyIntParse (s : String) : Option Int :=
  match s.data with
  | '-' :: ds =>
    if !ds.isEmpty && ds.all Char.isDigit then some (-(digitsToNat ds : Int))
    else none
  | '+' :: ds =>
    if !ds.isEmpty && ds.all Char.isDigit then some (digitsToNat ds) else none
  | ds =>
    if !ds.isEmpty && ds.all Char.isDigit then some (digitsToNat ds) else none

/-- The loop-body fragment
`if re.search(r'^u?int(\d+)$', typ) and isinstance(val, str): val = int(val)`
of `encode_data`. -/
def intStrConvert (t : String) (v : B) : Except Err B :=
  if matchIntType t then
    match v with
    | B.pyval (Value.str s) =>
      match pyIntParse s with
      | some n => .ok (B.pyval (Value.num n))
      | none => .error (.valueError s)
    | v => .ok v
  else .ok v

/-- Python `typ.endswith(']')`. -/
def endsWithRBracket (s : String) : Bool :=
  s.data.getLast? == some ']'

/-- Python `typ[:-2]`: drop the final two characters (fewer if shorter).
Note this is NOT "strip the array suffix": it only matches `[]`; a fixed
size `[N]` leaves the opening bracket (and all but the last digit). -/
def pyDropLast2 (s : String) : String :=
  ⟨s.data.dropLast.dropLast⟩

mutual

/-- `encode_data(primary_type, data, types)` with explicit fuel.
First entry is always `('bytes32', hash_type(primary_type, types))`;
then one `(typ, val)` pair per declared field, with the string-to-int
conversion applied; the final result is `eth_abi.encode(types, values)`
(not yet hashed).  A non-dict `data` or a missing key raises. -/
def encodeDataF (types : TypeSet) : Nat → String → Value → Except Err B
  | 0, _, _ => .error .fuel
  | fuel + 1, primary, data =>
    match hash_type primary types with
    | .error e => .error e
    | .ok th =>
      match List.lookup primary types with
      | none => .error (.keyError primary)
      | some fields =>
        match data with
        | .record fs =>
          match encodeFieldsF types fuel fs fields with
          | .error e => .error e
          | .ok ps =>
            .ok (B.abi ("bytes32" :: ps.map Prod.fst) (th :: ps.map Prod.snd))
        | _ => .error (.typeError primary)

/-- The `for field in types[primary_type]` loop of `encode_data`:
`data[field['name']]` raises `KeyError` on an absent key; each field is
encoded by `_encode_field` and then passed through the int-conversion. -/
def encodeFieldsF (types : TypeSet) :
    Nat → RecordFields → List Field → Except Err (List (String × B))
  | 0, _, _ => .error .fuel
  | _ + 1, _, [] => .ok []
  | fuel + 1, fs, fd :: rest =>
    match recLookup fs fd.name with
    | none => .error (.keyError fd.name)
    | some v =>
      match encodeFieldF types fuel fd.name fd.type v with
      | .error e => .error e
      | .ok (t, ev) =>
        match intStrConvert t ev with
        | .error e => .error e
        | .ok ev2 =>
          match encodeFieldsF types fuel fs rest with
          | .error e => .error e
          | .ok ps => .ok ((t, ev2) :: ps)

/-- `_encode_field(name, typ, value)`, in the source's branch order:
composite type (with the `None` → zero-string fallback), `None` error,
`bytes`, `string`, trailing-`]` array (note `typ[:-2]` and the
`dict(...)` collapse), and finally scalar passthrough. -/
def encodeFieldF (types : TypeSet) :
    Nat → String → String → Value → Except Err (String × B)
  | 0, _, _, _ => .error .fuel
  | fuel + 1, name, typ, value =>
    if (List.lookup typ types).isSome then
      match value with
      | .null => .ok ("bytes32", B.pyval (Value.str zeroHex32))
      | v =>
        match encodeDataF types fuel typ v with
        | .error e => .error e
        | .ok e => .ok ("bytes32", B.keccak e)
    else
      match value with
      | .null => .error (.missingValue (missingValueMsg name))
      | v =>
        if typ = "bytes" then
          match v with
          | .bytes bs => .ok ("bytes32", B.keccak (B.lit bs))
          | _ => .error (.typeError name)
        else if typ = "string" then
          match v with
          | .str s => .ok ("bytes32", B.keccak (B.utf8 s))
          | _ => .error (.typeError name)
        else if endsWithRBracket typ then
          match v with
          | .arr vs =>
            match encodeElemsF types fuel name (pyDropLast2 typ) vs with
            | .error e => .error e
            | .ok ps =>
              let d := dictOf ps
              .ok ("bytes32", B.keccak (B.abi (d.map Prod.fst) (d.map Prod.snd)))
          | _ => .error (.typeError name)
        else .ok (typ, B.pyval v)

/-- The array-branch comprehension
`[_encode_field(name, parsed_type, v) for v in value]`. -/
def encodeElemsF (types : TypeSet) :
    Nat → String → String → ValueList → Except Err (List (String × B))
  | 0, _, _, _ => .error .fuel
  | _ + 1, _, _, .nil => .ok []
  | fuel + 1, name, ptyp, .cons v rest =>
    match encodeFieldF types fuel name ptyp v with
    | .error e => .error e
    | .ok p =>
      match encodeElemsF types fuel name ptyp rest with
      | .error e => .error e
      | .ok ps => .ok (p :: ps)

end

/-- Total number of field descriptors in the type set. -/
def sumFields : TypeSet → Nat
  | [] => 0
  | (_, fs) :: rest => fs.length + sumFields rest

/-- Fuel bound for `encode_data`: each recursion level of the Python code
either steps along a field list of one of the types or descends into a
structurally smaller value, so the recursion depth is (generously)
bounded by this product. -/
def encodeFuel (data : Value) (types : TypeSet) : Nat :=
  (vsize data + 2) * (vsize data + sumFields types + 8)

/-- The public `encode_data` of the source, with the fuel instantiated. -/
def encode_data (primary : String) (data : Value) (types : TypeSet) :
    Except Err B :=
  encodeDataF types (encodeFuel data types) primary data

/-- `hash_struct(primary_type, data, types)`. -/
def hash_struct (primary : String) (data : Value) (types : TypeSet) :
    Except Err B :=
  (encode_data primary data types).map B.keccak

/-- The `typed_data` argument of `eip712_encode`
(`{types, primaryType, domain, message}`). -/
structure TypedData where
  types : TypeSet
  primaryType : String
  domain : Value
  message : Value

/-- `eip712_encode(typed_data)`: magic prefix `0x1901`, domain struct
hash, and — unless the primary type is `'EIP712Domain'` itself — the
message struct hash. -/
def eip712_encode (td : TypedData) : Except Err (List B) :=
  match hash_struct "EIP712Domain" td.domain td.types with
  | .error e => .error e
  | .ok d =>
    if td.primaryType ≠ "EIP712Domain" then
      match hash_struct td.primaryType td.message td.types with
      | .error e => .error e
      | .ok m => .ok [B.lit [0x19, 0x01], d, m]
    else .ok [B.lit [0x19, 0x01], d]

/-- Private key as `eip712_signature` accepts it: a hex string (with or
without `0x`) or raw bytes. -/
inductive KeyInput where
  | hexStr : String → KeyInput
  | raw : List Nat → KeyInput

/-- Lower-case hex digit of a nibble. -/
def nibbleHex (n : Nat) : Char :=
  if n < 10 then Char.ofNat (48 + n) else Char.ofNat (87 + n)

/-- Python `bytes.hex()`: two lower-case hex digits per byte. -/
def bytesToHex (bs : List Nat) : String :=
  ⟨(bs.map (fun b => [nibbleHex (b / 16), nibbleHex (b % 16)])).flatten⟩

/-- The key-normalisation prologue of `eip712_signature`: strip a leading
`0x` from a string key, hex-encode a bytes key. -/
def normalizeKey : KeyInput → String
  | .hexStr s => if s.data.take 2 = ['0', 'x'] then ⟨s.data.drop 2⟩ else s
  | .raw bs => bytesToHex bs

/-- `eth_utils.big_endian_to_int`. -/
def big_endian_to_int (bs : List Nat) : Nat :=
  bs.foldl (fun a b => a * 256 + b) 0

/-- Big-endian byte list of fixed width (`int.to_bytes` payload). -/
def beBytes : Nat → Nat → List Nat
  | 0, _ => []
  | l + 1, n => beBytes l (n / 256) ++ [n % 256]

/-- Python `n.to_bytes(len, 'big')`: `OverflowError` (modelled as `none`)
when the value does not fit. -/
def toBytesBE (len n : Nat) : Option (List Nat) :=
  if n < 256 ^ len then some (beBytes len n) else none

/-- `eip712_signature(payload, private_key)`.  The coincurve signer is the
opaque collaborator `signRec`, taking the normalised hex key and the
joined payload and returning the 65 raw signature bytes
(r ‖ s ‖ recovery-id); the Python `signature[64]` subscript is modelled
with `getD` (the claims only concern signatures of the documented
65-byte shape).  The key-validation failure of
`PrivateKey.from_hex` lives inside the collaborator and is not
modelled. -/
def eip712_signature (signRec : String → B → List Nat) (payload : List B)
    (key : KeyInput) : Option String :=
  let joined := B.cat payload
  let sig := signRec (normalizeKey key) joined
  let v := sig.getD 64 0 + 27
  let r := big_endian_to_int (sig.take 32)
  let s := big_endian_to_int ((sig.drop 32).take 32)
  match toBytesBE 32 r, toBytesBE 32 s, toBytesBE 1 v with
  | some rb, some sb, some vb => some ("0x" ++ bytesToHex (rb ++ sb ++ vb))
  | _, _, _ => none

/-- Canonical encoding of a single type, as the spec words it:
`TypeName(type1 name1,...)` with the field declarations joined by commas
and no spaces (empty for a type with no entry).  This is the
specification-side definition that claim C1 compares `encode_type`
against. -/
def encodeOne (types : TypeSet) (name : String) : String :=
  match List.lookup name types with
  | some fs => name ++ "(" ++ typeDefStr fs ++ ")"
  | none => ""

/-- Concatenation of a list of strings. -/
def strJoin : List String → String
  | [] => ""
  | s :: rest => s ++ strJoin rest

/-- Leading-match test used by `strContains`. -/
def takeMatches : List Char → List Char → Bool
  | [], _ => true
  | _ :: _, [] => false
  | a :: as, b :: bs => a == b && takeMatches as bs

/-- Substring test on character lists. -/
def containsSub (hay needle : List Char) : Bool :=
  match hay with
  | [] => needle.isEmpty
  | _ :: rest => takeMatches needle hay || containsSub rest needle

/-- Python `needle in hay` on strings. -/
def strContains (hay needle : String) : Bool :=
  containsSub hay.data needle.data

/-! ### Lemmas about the canonical type encoder -/

theorem pyStrLe_iff_le (a b : String) : pyStrLe a b ↔ a ≤ b :=
  (not_congr String.lt_iff_toList_lt).symm

instance : IsTotal String pyStrLe :=
  ⟨fun a b => by
    rw [pyStrLe_iff_le, pyStrLe_iff_le]
    exact le_total a b⟩

instance : IsTrans String pyStrLe :=
  ⟨fun a b c hab hbc => by
    rw [pyStrLe_iff_le] at hab hbc ⊢
    exact le_trans hab hbc⟩

theorem strJoin_cons (a : String) (l : List String) :
    strJoin (a :: l) = a ++ strJoin l := rfl

theorem encodeOne_of_lookup {types : TypeSet} {typ : String} {children : List Field}
    (h : List.lookup typ types = some children) :
    encodeOne types typ = typ ++ "(" ++ typeDefStr children ++ ")" := by
  simp [encodeOne, h]

/-- A successful `encode_type` loop run concatenates the per-type
encodings of its input list, in order. -/
theorem encodeTypeLoop_ok {types : TypeSet} :
    ∀ {l : List String} {s : String}, encodeTypeLoop types l = .ok s →
      s = strJoin (l.map (encodeOne types))
  | [], s, h => by
    simp only [encodeTypeLoop] at h
    cases h
    rfl
  | typ :: rest, s, h => by
    simp only [encodeTypeLoop] at h
    split at h
    · cases h
    · rename_i children hl
      split at h
      · cases h
      · cases hres : encodeTypeLoop types rest with
        | error e => rw [hres] at h; cases h
        | ok r =>
          rw [hres] at h
          cases h
          rw [List.map_cons, strJoin_cons, encodeOne_of_lookup hl,
            encodeTypeLoop_ok hres]

/-- If every type in the list has a non-empty entry, the loop succeeds. -/
theorem encodeTypeLoop_total {types : TypeSet} :
    ∀ {l : List String},
      (∀ t ∈ l, ∃ fs, List.lookup t types = some fs ∧ fs ≠ []) →
      ∃ s, encodeTypeLoop types l = .ok s
  | [], _ => ⟨"", rfl⟩
  | typ :: rest, h => by
    obtain ⟨fs, hfs, hne⟩ := h typ (List.mem_cons_self typ rest)
    obtain ⟨r, hr⟩ :=
      encodeTypeLoop_total (fun t ht => h t (List.mem_cons_of_mem typ ht))
    refine ⟨typ ++ "(" ++ typeDefStr fs ++ ")" ++ r, ?_⟩
    simp only [encodeTypeLoop, hfs, if_neg hne, hr]
    rfl

/-! ### Lemmas about the struct encoder -/

theorem encodeFuel_ge (data : Value) (types : TypeSet) :
    16 ≤ encodeFuel data types := by
  have h1 : 2 ≤ vsize data + 2 := by omega
  have h2 : 8 ≤ vsize data + sumFields types + 8 := by omega
  calc (16 : Nat) = 2 * 8 := rfl
    _ ≤ (vsize data + 2) * (vsize data + sumFields types + 8) :=
        Nat.mul_le_mul h1 h2
    _ = encodeFuel data types := rfl

theorem intStrConvert_bytes32 (v : B) : intStrConvert "bytes32" v = .ok v := by
  have h : matchIntType "bytes32" = false := by decide
  simp [intStrConvert, h]

/-- The composite-and-`None` branch of `_encode_field`: membership of the
declared type in the type set plus a `None` value yield the zero string,
for every fuel level. -/
theorem encodeFieldF_null_comp {types : TypeSet} {typ : String}
    (hc : (List.lookup typ types).isSome) (fuel : Nat) (name : String) :
    encodeFieldF types (fuel + 1) name typ .null =
      .ok ("bytes32", B.pyval (Value.str zeroHex32)) := by
  simp [encodeFieldF, hc]

/-! ### Lemmas about the dependency walk -/

/-- Invariant of the dependency walk: the output extends the accumulator
by fresh, pairwise-distinct names, each of which has a non-empty entry in
the type set. -/
def FtdInv (types : TypeSet) (results r : List String) : Prop :=
  ∃ t, r = results ++ t ∧ t.Nodup ∧
    ∀ x ∈ t, x ∉ results ∧ ∃ fs, List.lookup x types = some fs ∧ fs ≠ []

theorem ftdInv_refl (types : TypeSet) (r : List String) : FtdInv types r r :=
  ⟨[], by simp, List.nodup_nil, by simp⟩

theorem ftdInv_comp {types : TypeSet} {r0 r1 r2 : List String}
    (h1 : FtdInv types r0 r1) (h2 : FtdInv types r1 r2) : FtdInv types r0 r2 := by
  obtain ⟨t1, rfl, hn1, hf1⟩ := h1
  obtain ⟨t2, rfl, hn2, hf2⟩ := h2
  refine ⟨t1 ++ t2, by simp, ?_, ?_⟩
  · refine List.Nodup.append hn1 hn2 ?_
    intro x hx1 hx2
    exact (hf2 x hx2).1 (List.mem_append_right r0 hx1)
  · intro x hx
    rcases List.mem_append.1 hx with hx | hx
    · exact hf1 x hx
    · exact ⟨fun hc => (hf2 x hx).1 (List.mem_append_left t1 hc), (hf2 x hx).2⟩

theorem fieldsOf_ne_nil {types : TypeSet} {p : String}
    (h : fieldsOf types p ≠ []) :
    ∃ fs, List.lookup p types = some fs ∧ fs ≠ [] := by
  cases hl : List.lookup p types with
  | none => exact absurd (by simp [fieldsOf, hl]) h
  | some fs =>
    refine ⟨fs, rfl, ?_⟩
    intro hc
    exact h (by simp [fieldsOf, hl, hc])

theorem ftdFold_inv (types : TypeSet) (fuel : Nat)
    (IH : ∀ primary results, FtdInv types results (ftdFuel types fuel primary results)) :
    ∀ (fields : List Field) (results : List String),
      FtdInv types results
        (fields.foldl (fun acc fd => ftdFuel types fuel fd.type acc) results)
  | [], results => ftdInv_refl types results
  | fd :: rest, results => by
    rw [List.foldl_cons]
    exact ftdInv_comp (IH fd.type results)
      (ftdFold_inv types fuel IH rest (ftdFuel types fuel fd.type results))

theorem ftdFuel_inv (types : TypeSet) :
    ∀ (fuel : Nat) (primary : String) (results : List String),
      FtdInv types results (ftdFuel types fuel primary results)
  | 0, _, results => ftdInv_refl types results
  | fuel + 1, primary, results => by
    rw [ftdFuel]
    by_cases hc : stripType primary ∈ results ∨
      fieldsOf types (stripType primary) = []
    · rw [if_pos hc]
      exact ftdInv_refl types results
    · rw [if_neg hc]
      push_neg at hc
      have base : FtdInv types results (results ++ [stripType primary]) := by
        refine ⟨[stripType primary], rfl, List.nodup_singleton _, ?_⟩
        intro x hx
        rw [List.mem_singleton] at hx
        subst hx
        exact ⟨hc.1, fieldsOf_ne_nil hc.2⟩
      exact ftdInv_comp base
        (ftdFold_inv types fuel (ftdFuel_inv types fuel)
          (fieldsOf types (stripType primary)) (results ++ [stripType primary]))

theorem find_type_dependencies_nodup (primary : String) (types : TypeSet) :
    (find_type_dependencies primary types).Nodup := by
  obtain ⟨t, ht, hn, _⟩ :=
    ftdFuel_inv types (types.length + 1) primary []
  rw [find_type_dependencies, ht, List.nil_append]
  exact hn

theorem find_type_dependencies_mem {primary : String} {types : TypeSet} :
    ∀ m ∈ find_type_dependencies primary types,
      ∃ fs, List.lookup m types = some fs ∧ fs ≠ [] := by
  intro m hm
  obtain ⟨t, ht, _, hf⟩ := ftdFuel_inv types (types.length + 1) primary []
  rw [find_type_dependencies, ht, List.nil_append] at hm
  exact (hf m hm).2

theorem find_type_dependencies_head {primary : String} {types : TypeSet}
    (h : fieldsOf types (stripType primary) ≠ []) :
    (find_type_dependencies primary types).head? = some (stripType primary) := by
  rw [find_type_dependencies, ftdFuel, if_neg (by simp [h])]
  obtain ⟨t, ht, _, _⟩ :=
    ftdFold_inv types (types.length) (ftdFuel_inv types (types.length))
      (fieldsOf types (stripType primary)) ([] ++ [stripType primary])
  rw [ht]
  rfl

/-! #### Fuel adequacy of the dependency walk

The wrapper `find_type_dependencies` runs the walk with fuel
`types.length + 1`.  The following lemmas show this never truncates the
depth-first traversal: any strictly larger fuel produces the same
result, because each recursing level consumes one fresh key of the type
set. -/

theorem length_filter_le_of_imp {α : Type} {p q : α → Bool}
    (h : ∀ a, p a = true → q a = true) :
    ∀ l : List α, (l.filter p).length ≤ (l.filter q).length
  | [] => le_refl _
  | a :: l => by
    by_cases hp : p a = true
    · rw [List.filter_cons_of_pos hp, List.filter_cons_of_pos (h a hp)]
      simpa using length_filter_le_of_imp h l
    · rw [List.filter_cons_of_neg (by simpa using hp)]
      by_cases hq : q a = true
      · rw [List.filter_cons_of_pos hq]
        exact le_trans (length_filter_le_of_imp h l) (by simp)
      · rw [List.filter_cons_of_neg (by simpa using hq)]
        exact length_filter_le_of_imp h l

theorem length_filter_lt_of_mem {α : Type} {p q : α → Bool}
    (h : ∀ a, p a = true → q a = true) {a : α}
    (hpa : p a = false) (hqa : q a = true) :
    ∀ {l : List α}, a ∈ l → (l.filter p).length < (l.filter q).length := by
  intro l
  induction l with
  | nil => intro hc; cases hc
  | cons b l ih =>
    intro hmem
    rcases List.mem_cons.1 hmem with rfl | hm
    · rw [List.filter_cons_of_neg (by simp [hpa]),
        List.filter_cons_of_pos hqa]
      exact Nat.lt_succ_of_le (length_filter_le_of_imp h l)
    · by_cases hpb : p b = true
      · rw [List.filter_cons_of_pos hpb, List.filter_cons_of_pos (h b hpb)]
        simpa using ih hm
      · rw [List.filter_cons_of_neg (by simpa using hpb)]
        by_cases hqb : q b = true
        · rw [List.filter_cons_of_pos hqb]
          exact lt_of_lt_of_le (ih hm) (by simp)
        · rw [List.filter_cons_of_neg (by simpa using hqb)]
          exact ih hm

/-- Number of keys of the type set not yet in the accumulator: the
quantity each recursing level of the walk strictly decreases. -/
def keysOutside (types : TypeSet) (results : List String) : Nat :=
  ((types.map Prod.fst).filter (fun k => decide (k ∉ results))).length

theorem keysOutside_anti {types : TypeSet} {r r' : List String} (h : r ⊆ r') :
    keysOutside types r' ≤ keysOutside types r := by
  refine length_filter_le_of_imp ?_ (types.map Prod.fst)
  intro a ha
  simp only [decide_eq_true_eq] at ha ⊢
  exact fun hc => ha (h hc)

theorem lookup_some_mem_keys {types : TypeSet} {p : String} {fs : List Field}
    (h : List.lookup p types = some fs) : p ∈ types.map Prod.fst := by
  induction types with
  | nil => cases h
  | cons kv rest ih =>
    obtain ⟨k, v⟩ := kv
    by_cases hpk : p = k
    · simp [hpk]
    · have hbk : (p == k) = false := beq_eq_false_iff_ne.mpr hpk
      simp only [List.lookup, hbk] at h
      exact List.mem_cons_of_mem _ (ih h)

theorem keysOutside_append_lt {types : TypeSet} {results : List String}
    {p : String} (hmem : p ∈ types.map Prod.fst) (hp : p ∉ results) :
    keysOutside types (results ++ [p]) < keysOutside types results := by
  refine length_filter_lt_of_mem ?_ ?_ ?_ hmem
  · intro a ha
    simp only [decide_eq_true_eq, List.mem_append] at ha ⊢
    exact fun hc => ha (Or.inl hc)
  · simp
  · simpa using hp

theorem ftdFold_stable (types : TypeSet) (f g : Nat)
    (IH : ∀ primary results, keysOutside types results < f →
      keysOutside types results < g →
      ftdFuel types f primary results = ftdFuel types g primary results) :
    ∀ (fields : List Field) (results : List String),
      keysOutside types results < f → keysOutside types results < g →
      fields.foldl (fun acc fd => ftdFuel types f fd.type acc) results =
        fields.foldl (fun acc fd => ftdFuel types g fd.type acc) results
  | [], _, _, _ => rfl
  | fd :: rest, results, hf, hg => by
    rw [List.foldl_cons, List.foldl_cons, ← IH fd.type results hf hg]
    obtain ⟨t, ht, -, -⟩ := ftdFuel_inv types f fd.type results
    have hsub : results ⊆ ftdFuel types f fd.type results := by
      rw [ht]; exact List.subset_append_left results t
    have hle := @keysOutside_anti types results (ftdFuel types f fd.type results) hsub
    exact ftdFold_stable types f g IH rest (ftdFuel types f fd.type results)
      (lt_of_le_of_lt hle hf) (lt_of_le_of_lt hle hg)

theorem ftdFuel_stable (types : TypeSet) :
    ∀ (f : Nat) (g : Nat) (primary : String) (results : List String),
      keysOutside types results < f → keysOutside types results < g →
      ftdFuel types f primary results = ftdFuel types g primary results
  | 0, _, _, _, hf, _ => absurd hf (Nat.not_lt_zero _)
  | _ + 1, 0, _, _, _, hg => absurd hg (Nat.not_lt_zero _)
  | f + 1, g + 1, primary, results, hf, hg => by
    rw [ftdFuel, ftdFuel]
    by_cases hc : stripType primary ∈ results ∨
      fieldsOf types (stripType primary) = []
    · rw [if_pos hc, if_pos hc]
    · rw [if_neg hc, if_neg hc]
      push_neg at hc
      obtain ⟨fs, hfs, -⟩ := fieldsOf_ne_nil hc.2
      have hdec := keysOutside_append_lt (lookup_some_mem_keys hfs) hc.1
      exact ftdFold_stable types f g
        (fun p r hf' hg' => ftdFuel_stable types f g p r hf' hg')
        (fieldsOf types (stripType primary)) (results ++ [stripType primary])
        (by omega) (by omega)

/-- The fuel `types.length + 1` used by `find_type_dependencies` is
adequate: the walk computes the same result with any larger fuel, so the
bounded embedding does not truncate the recursion of the Python code. -/
theorem find_type_dependencies_fuel_independent (primary : String)
    (types : TypeSet) (fuel : Nat) (h : types.length < fuel) :
    ftdFuel types fuel primary [] = find_type_dependencies primary types := by
  have hts : keysOutside types [] ≤ types.length := by
    calc keysOutside types []
        ≤ (types.map Prod.fst).length := List.length_filter_le _ _
      _ = types.length := List.length_map _ _
  exact ftdFuel_stable types fuel (types.length + 1) primary []
    (by omega) (by omega)

/-- C7 counterexample: `"A"` is a key of the type set (with an empty
field list), yet the walk returns the empty sequence, so the stripped
primary type does not appear as its first element. -/
theorem find_deps_empty_key_counterexample :
    List.lookup "A" ([("A", [])] : TypeSet) = some [] ∧
    stripType "A" = "A" ∧
    find_type_dependencies "A" [("A", [])] = [] ∧
    (find_type_dependencies "A" [("A", [])]).head? = none :=
  ⟨rfl, rfl, rfl, rfl⟩

/-- C7 (amended): `find_type_dependencies` returns a duplicate-free
sequence in first-discovery order of its depth-first walk; the starting
name is stripped at its first non-word character before lookup; a name
already present, absent from the TypeSet, *or mapped to an empty field
list* is not added and not recursed into; and when the stripped primary
type is a key of the TypeSet with a non-empty field list it appears as
the first element of the result. -/
theorem find_type_dependencies_spec (primary : String) (types : TypeSet) :
    (find_type_dependencies primary types).Nodup ∧
    (∀ m ∈ find_type_dependencies primary types,
      ∃ fs, List.lookup m types = some fs ∧ fs ≠ []) ∧
    (fieldsOf types (stripType primary) ≠ [] →
      (find_type_dependencies primary types).head? = some (stripType primary)) :=
  ⟨find_type_dependencies_nodup primary types,
    find_type_dependencies_mem,
    fun h => find_type_dependencies_head h⟩

/-- Witness for the amended C7: a primary type written with an array
suffix resolves to its stripped name, which heads the result. -/
theorem find_type_dependencies_spec_witness :
    fieldsOf [("Message", [⟨"a", "string"⟩])] (stripType "Message[]") ≠ [] ∧
    (find_type_dependencies "Message[]" [("Message", [⟨"a", "string"⟩])]).head? =
      some (stripType "Message[]") ∧
    (find_type_dependencies "Message[]" [("Message", [⟨"a", "string"⟩])]).Nodup :=
  ⟨by decide,
    (find_type_dependencies_spec "Message[]" [("Message", [⟨"a", "string"⟩])]).2.2
      (by decide),
    (find_type_dependencies_spec "Message[]" [("Message", [⟨"a", "string"⟩])]).1⟩

/-- C8 counterexample: `"B"` is used as a dependency of `"A"` but has no
entry in the type set; `encode_type` nevertheless succeeds (silently
omitting any definition for `B`) instead of failing. -/
theorem encode_type_missing_dep_counterexample :
    List.lookup "B" ([("A", [⟨"b", "B"⟩])] : TypeSet) = none ∧
    encode_type "A" [("A", [⟨"b", "B"⟩])] = .ok "A(B b)" :=
  ⟨rfl, rfl⟩

/-- C8 (amended): a dependency with no field-list entry never makes
`encode_type` fail — it is silently skipped by the dependency walk; the
`No type definition specified` error is raised exactly when the primary
type's own entry is an empty field list, and its message does not name
the offending type (the f-string interpolates the Python builtin
`type`). -/
theorem encode_type_error_spec (primary : String) (types : TypeSet) :
    (List.lookup primary types = some [] →
      encode_type primary types = .error (.noTypeDef msgNoTypeDef)) ∧
    (∀ fs, List.lookup primary types = some fs → fs ≠ [] →
      ∃ s, encode_type primary types = .ok s) := by
  constructor
  · intro h
    simp [encode_type, encodeTypeLoop, h]
  · intro fs hfs hne
    have hall : ∀ t ∈ primary :: List.insertionSort pyStrLe
        ((find_type_dependencies primary types).filter (fun d => d ≠ primary)),
        ∃ gs, List.lookup t types = some gs ∧ gs ≠ [] := by
      intro t ht
      rcases List.mem_cons.1 ht with rfl | ht
      · exact ⟨fs, hfs, hne⟩
      · refine @find_type_dependencies_mem primary types t ?_
        have := (List.perm_insertionSort pyStrLe
          ((find_type_dependencies primary types).filter
            (fun d => d ≠ primary))).mem_iff.1 ht
        exact List.mem_of_mem_filter this
    obtain ⟨s, hs⟩ := encodeTypeLoop_total hall
    exact ⟨s, hs⟩

/-- Witness for the amended C8: the error fires for an empty primary
entry, and a type set with an undefined dependency still succeeds. -/
theorem encode_type_error_spec_witness :
    encode_type "A" [("A", ([] : List Field))] =
      .error (.noTypeDef msgNoTypeDef) ∧
    ∃ s, encode_type "A" [("A", [⟨"b", "B"⟩])] = .ok s :=
  ⟨(encode_type_error_spec "A" [("A", [])]).1 rfl,
    (encode_type_error_spec "A" [("A", [⟨"b", "B"⟩])]).2 [⟨"b", "B"⟩] rfl
      (by decide)⟩

/-- C1: the canonical signature string produced by `encode_type` is the
primary type's own encoding followed by the encodings of the transitive
dependencies (the primary type excluded), sorted lexicographically by
type name, each type encoded as `Name(type1 name1,...)`. -/
theorem encode_type_canonical (primary : String) (types : TypeSet) (s : String)
    (h : encode_type primary types = .ok s) :
    ∃ deps : List String,
      deps.Perm ((find_type_dependencies primary types).filter
        (fun d => d ≠ primary)) ∧
      List.Sorted (fun a b : String => a ≤ b) deps ∧
      s = encodeOne types primary ++ strJoin (deps.map (encodeOne types)) := by
  refine ⟨List.insertionSort pyStrLe
    ((find_type_dependencies primary types).filter (fun d => d ≠ primary)),
    List.perm_insertionSort _ _, ?_, ?_⟩
  · exact (List.sorted_insertionSort pyStrLe _).imp
      (fun hab => (pyStrLe_iff_le _ _).1 hab)
  · have hs := encodeTypeLoop_ok h
    rw [hs, List.map_cons, strJoin_cons]

/-- Witness for C1 at a concrete type set whose discovery order (`A`,
`C`, `B`) differs from the lexicographic order (`B`, `C`). -/
theorem encode_type_canonical_witness :
    encode_type "A"
        [("A", [⟨"c", "C"⟩, ⟨"b", "B"⟩]), ("C", [⟨"x", "string"⟩]),
          ("B", [⟨"y", "C"⟩])] = .ok "A(C c,B b)B(C y)C(string x)" ∧
    ∃ deps : List String,
      deps.Perm ((find_type_dependencies "A"
        [("A", [⟨"c", "C"⟩, ⟨"b", "B"⟩]), ("C", [⟨"x", "string"⟩]),
          ("B", [⟨"y", "C"⟩])]).filter (fun d => d ≠ "A")) ∧
      List.Sorted (fun a b : String => a ≤ b) deps ∧
      "A(C c,B b)B(C y)C(string x)" =
        encodeOne [("A", [⟨"c", "C"⟩, ⟨"b", "B"⟩]), ("C", [⟨"x", "string"⟩]),
          ("B", [⟨"y", "C"⟩])] "A" ++
        strJoin (deps.map (encodeOne
          [("A", [⟨"c", "C"⟩, ⟨"b", "B"⟩]), ("C", [⟨"x", "string"⟩]),
            ("B", [⟨"y", "C"⟩])])) :=
  ⟨rfl, encode_type_canonical "A" _ _ rfl⟩

/-- C3: for a field whose declared (non-array) type is present in the
TypeSet and whose value is `None`, `encode_data` raises no error and uses
the all-zero 32-byte value as the field's `bytes32` contribution, and the
struct encoding of a record built from such a field succeeds. -/
theorem encode_field_null_composite (types : TypeSet) (name typ : String)
    (hc : (List.lookup typ types).isSome) :
    (∀ fuel, encodeFieldF types (fuel + 1) name typ .null =
      .ok ("bytes32", B.pyval (Value.str zeroHex32))) ∧
    (∀ primary fs th, List.lookup primary types = some [⟨name, typ⟩] →
      hash_type primary types = .ok th →
      recLookup fs name = some .null →
      encode_data primary (.record fs) types =
        .ok (B.abi ["bytes32", "bytes32"]
          [th, B.pyval (Value.str zeroHex32)])) := by
  refine ⟨fun fuel => encodeFieldF_null_comp hc fuel name, ?_⟩
  intro primary fs th hp hth hv
  have h16 := encodeFuel_ge (Value.record fs) types
  obtain ⟨k, hk⟩ : ∃ k, encodeFuel (Value.record fs) types = k + 1 + 1 + 1 :=
    ⟨encodeFuel (Value.record fs) types - 3, by omega⟩
  simp only [encode_data, hk, encodeDataF, hth, hp, encodeFieldsF, hv,
    encodeFieldF_null_comp hc, intStrConvert_bytes32, List.map_cons,
    List.map_nil]

/-- Witness for C3: a two-type set with a null-valued nested record. -/
theorem encode_field_null_composite_witness :
    (List.lookup "Inner"
      ([("Outer", [⟨"inner", "Inner"⟩]), ("Inner", [⟨"x", "uint8"⟩])] :
        TypeSet)).isSome ∧
    encodeFieldF [("Outer", [⟨"inner", "Inner"⟩]), ("Inner", [⟨"x", "uint8"⟩])]
        5 "inner" "Inner" .null =
      .ok ("bytes32", B.pyval (Value.str zeroHex32)) ∧
    encode_data "Outer" (.record (vrec [("inner", .null)]))
        [("Outer", [⟨"inner", "Inner"⟩]), ("Inner", [⟨"x", "uint8"⟩])] =
      .ok (B.abi ["bytes32", "bytes32"]
        [B.keccak (B.utf8 "Outer(Inner inner)Inner(uint8 x)"),
          B.pyval (Value.str zeroHex32)]) :=
  ⟨rfl,
    (encode_field_null_composite
      [("Outer", [⟨"inner", "Inner"⟩]), ("Inner", [⟨"x", "uint8"⟩])]
      "inner" "Inner" rfl).1 4,
    (encode_field_null_composite
      [("Outer", [⟨"inner", "Inner"⟩]), ("Inner", [⟨"x", "uint8"⟩])]
      "inner" "Inner" rfl).2 "Outer" (vrec [("inner", .null)]) _ rfl rfl rfl⟩

/-- C10: a record that entirely lacks the key for a declared field makes
`encode_data` raise the `KeyError`-style lookup error when reading that
field — whatever the field's declared type is — so the all-zero
substitute of C3 applies only to keys that are present and null. -/
theorem encode_data_absent_key (types : TypeSet) (primary name typ : String)
    (rest : List Field) (fs : RecordFields) (th : B)
    (hth : hash_type primary types = .ok th)
    (hp : List.lookup primary types = some (⟨name, typ⟩ :: rest))
    (hv : recLookup fs name = none) :
    encode_data primary (.record fs) types = .error (.keyError name) := by
  have h16 := encodeFuel_ge (Value.record fs) types
  obtain ⟨k, hk⟩ : ∃ k, encodeFuel (Value.record fs) types = k + 1 + 1 :=
    ⟨encodeFuel (Value.record fs) types - 2, by omega⟩
  simp only [encode_data, hk, encodeDataF, hth, hp, encodeFieldsF, hv]

/-- Witness for C10, with a composite-typed field to show the lookup
error fires even then (contrast with the null case of C3). -/
theorem encode_data_absent_key_witness :
    hash_type "Outer" ([("Outer", [⟨"inner", "Inner"⟩]),
        ("Inner", [⟨"x", "uint8"⟩])] : TypeSet) =
      .ok (B.keccak (B.utf8 "Outer(Inner inner)Inner(uint8 x)")) ∧
    recLookup (vrec []) "inner" = none ∧
    encode_data "Outer" (.record (vrec []))
        [("Outer", [⟨"inner", "Inner"⟩]), ("Inner", [⟨"x", "uint8"⟩])] =
      .error (.keyError "inner") :=
  ⟨rfl, rfl,
    encode_data_absent_key
      [("Outer", [⟨"inner", "Inner"⟩]), ("Inner", [⟨"x", "uint8"⟩])]
      "Outer" "inner" "Inner" [] (vrec [])
      (B.keccak (B.utf8 "Outer(Inner inner)Inner(uint8 x)")) rfl rfl rfl⟩

/-! ### Concrete inputs exercising the array and error branches -/

/-- Message record with body `"a"`. -/
def msgA : Value := .record (vrec [("body", .str "a")])

/-- Message record with body `"b"`. -/
def msgB : Value := .record (vrec [("body", .str "b")])

/-- Message record with body `"c"`. -/
def msgC : Value := .record (vrec [("body", .str "c")])

/-- Message record with body `"X"`. -/
def msgX : Value := .record (vrec [("body", .str "X")])

/-- Type set with an array-of-composite field. -/
def mailTypes : TypeSet :=
  [("Mail", [⟨"msgs", "Message[]"⟩]), ("Message", [⟨"body", "string"⟩])]

/-- A mailbox whose `msgs` array is `[msgA, msgB]`. -/
def mailboxA : Value := .record (vrec [("msgs", .arr (vlist [msgA, msgB]))])

/-- A mailbox whose `msgs` array is `[msgX, msgB]`: the first element
differs from `mailboxA`, the second agrees. -/
def mailboxX : Value := .record (vrec [("msgs", .arr (vlist [msgX, msgB]))])

/-- Body of the first message of a mailbox (projection used to exhibit
that `mailboxA` and `mailboxX` are different records). -/
def firstMsgBody : Value → String
  | .record (.cons "msgs"
      (.arr (.cons (.record (.cons "body" (.str s) _)) _)) _) => s
  | _ => ""

/-- C2 (code bug): the array branch of `_encode_field` stores the element
encodings in a `dict` keyed by the ABI type string `'bytes32'`, so all
element hashes collapse to the *last* one: two mailboxes differing in
their first message encode identically, and the tuple handed to the ABI
encoder contains a single `bytes32` entry for a two-element array.  (The
docstring claims a port of `eth-sig-util`, which encodes every element.) -/
theorem encode_data_array_collapses :
    firstMsgBody mailboxA = "a" ∧
    firstMsgBody mailboxX = "X" ∧
    mailboxA ≠ mailboxX ∧
    encode_data "Mail" mailboxA mailTypes =
      encode_data "Mail" mailboxX mailTypes ∧
    ∃ th h2, encode_data "Mail" mailboxA mailTypes =
      .ok (B.abi ["bytes32", "bytes32"]
        [th, B.keccak (B.abi ["bytes32"] [h2])]) :=
  ⟨rfl, rfl,
    fun h => absurd (congrArg firstMsgBody h) (by decide),
    rfl, ⟨_, _, rfl⟩⟩

/-- C4 (code bug): the missing-value error message interpolates the
Python builtin `type` instead of the field's declared type: for a null
`address` field named `to`, the message names `to` but contains
`<class 'type'>` rather than `address`. -/
theorem encode_data_missing_value_message :
    encode_data "T" (.record (vrec [("to", .null)])) [("T", [⟨"to", "address"⟩])] =
      .error (.missingValue
        "Missing value for field to of type <class 'type'>") ∧
    strContains "Missing value for field to of type <class 'type'>" "to" =
      true ∧
    strContains "Missing value for field to of type <class 'type'>"
      "address" = false :=
  ⟨rfl, by decide, by decide⟩

/-- Type set with a fixed-size array-of-composite field. -/
def wrapTypes : TypeSet :=
  [("Wrap", [⟨"ms", "Message[3]"⟩]), ("Message", [⟨"body", "string"⟩])]

/-- A record with a three-element fixed-size array. -/
def wrapData : Value :=
  .record (vrec [("ms", .arr (vlist [msgA, msgB, msgC]))])

/-- C6 (code bug): for a fixed-size array type `Message[3]`, the code
computes the element type as `typ[:-2]`, producing the mangled string
`"Message["` instead of the base type `"Message"`; the elements are
therefore not struct-encoded at all but passed through raw under the
unknown ABI type `"Message["` (on which the real `eth_abi` encoder
raises), and the `dict` collapse of C2 keeps only the last element. -/
theorem encode_data_fixed_array_mangled :
    pyDropLast2 "Message[3]" = "Message[" ∧
    stripType "Message[3]" = "Message" ∧
    (List.lookup "Message[" wrapTypes = none) ∧
    ∃ th, encode_data "Wrap" wrapData wrapTypes =
      .ok (B.abi ["bytes32", "bytes32"]
        [th, B.keccak (B.abi ["Message["] [B.pyval msgC])]) :=
  ⟨rfl, rfl, rfl, ⟨_, rfl⟩⟩

/-! ### Payload assembly (C5) -/

/-- C5: a successful `eip712_encode` yields the 2-byte `0x1901` prefix
first, then the domain struct hash; the result has exactly 2 segments
when the primary type is `'EIP712Domain'` and exactly 3 segments — the
third being the message struct hash — otherwise. -/
theorem eip712_encode_segments (td : TypedData) (segs : List B)
    (h : eip712_encode td = .ok segs) :
    segs.head? = some (B.lit [0x19, 0x01]) ∧
    (∃ d, hash_struct "EIP712Domain" td.domain td.types = .ok d ∧
      segs[1]? = some d) ∧
    (td.primaryType = "EIP712Domain" → segs.length = 2) ∧
    (td.primaryType ≠ "EIP712Domain" → segs.length = 3 ∧
      ∃ m, hash_struct td.primaryType td.message td.types = .ok m ∧
        segs[2]? = some m) := by
  simp only [eip712_encode] at h
  cases hd : hash_struct "EIP712Domain" td.domain td.types with
  | error e => rw [hd] at h; cases h
  | ok d =>
    simp only [hd] at h
    by_cases hpt : td.primaryType = "EIP712Domain"
    · rw [if_neg (fun hne => hne hpt)] at h
      cases h
      exact ⟨rfl, ⟨d, rfl, rfl⟩, fun _ => rfl, fun hne => absurd hpt hne⟩
    · rw [if_pos hpt] at h
      cases hm : hash_struct td.primaryType td.message td.types with
      | error e => rw [hm] at h; cases h
      | ok m =>
        simp only [hm] at h
        cases h
        exact ⟨rfl, ⟨d, rfl, rfl⟩, fun heq => absurd heq hpt,
          fun _ => ⟨rfl, m, rfl, rfl⟩⟩

/-- A concrete typed-data input for the C5 witness. -/
def tdExample : TypedData :=
  { types := [("EIP712Domain", [⟨"name", "string"⟩]),
      ("Mail", [⟨"body", "string"⟩])]
    primaryType := "Mail"
    domain := .record (vrec [("name", .str "D")])
    message := .record (vrec [("body", .str "hi")]) }

/-- Witness for C5: a non-domain primary type yields three segments led
by the `0x1901` prefix. -/
theorem eip712_encode_segments_witness :
    eip712_encode tdExample = .ok
      [B.lit [0x19, 0x01],
        B.keccak (B.abi ["bytes32", "bytes32"]
          [B.keccak (B.utf8 "EIP712Domain(string name)"),
            B.keccak (B.utf8 "D")]),
        B.keccak (B.abi ["bytes32", "bytes32"]
          [B.keccak (B.utf8 "Mail(string body)"),
            B.keccak (B.utf8 "hi")])] ∧
    ([B.lit [0x19, 0x01],
        B.keccak (B.abi ["bytes32", "bytes32"]
          [B.keccak (B.utf8 "EIP712Domain(string name)"),
            B.keccak (B.utf8 "D")]),
        B.keccak (B.abi ["bytes32", "bytes32"]
          [B.keccak (B.utf8 "Mail(string body)"),
            B.keccak (B.utf8 "hi")])] : List B).head? =
      some (B.lit [0x19, 0x01]) ∧
    ([B.lit [0x19, 0x01],
        B.keccak (B.abi ["bytes32", "bytes32"]
          [B.keccak (B.utf8 "EIP712Domain(string name)"),
            B.keccak (B.utf8 "D")]),
        B.keccak (B.abi ["bytes32", "bytes32"]
          [B.keccak (B.utf8 "Mail(string body)"),
            B.keccak (B.utf8 "hi")])] : List B).length = 3 := by
  refine ⟨rfl, (eip712_encode_segments tdExample _ rfl).1, ?_⟩
  exact ((eip712_encode_segments tdExample _ rfl).2.2.2 (by decide)).1

/-! ### Signature format (C9) -/

theorem big_endian_append (bs : List Nat) (b : Nat) :
    big_endian_to_int (bs ++ [b]) = 256 * big_endian_to_int bs + b := by
  simp only [big_endian_to_int, List.foldl_append, List.foldl_cons,
    List.foldl_nil]
  omega

theorem big_endian_lt (bs : List Nat) (hb : ∀ b ∈ bs, b < 256) :
    big_endian_to_int bs < 256 ^ bs.length := by
  induction bs using List.reverseRecOn with
  | nil => simp [big_endian_to_int]
  | append_singleton bs b ih =>
    have h1 := ih (fun x hx => hb x (List.mem_append_left _ hx))
    have h2 : b < 256 :=
      hb b (List.mem_append_right _ (List.mem_singleton.mpr rfl))
    rw [big_endian_append, List.length_append, List.length_singleton,
      pow_succ]
    omega

theorem beBytes_big_endian (bs : List Nat) (hb : ∀ b ∈ bs, b < 256) :
    beBytes bs.length (big_endian_to_int bs) = bs := by
  induction bs using List.reverseRecOn with
  | nil => rfl
  | append_singleton bs b ih =>
    have h1 := ih (fun x hx => hb x (List.mem_append_left _ hx))
    have h2 : b < 256 :=
      hb b (List.mem_append_right _ (List.mem_singleton.mpr rfl))
    rw [big_endian_append, List.length_append, List.length_singleton,
      beBytes]
    have hd : (256 * big_endian_to_int bs + b) / 256 = big_endian_to_int bs := by
      omega
    have hm : (256 * big_endian_to_int bs + b) % 256 = b := by omega
    rw [hd, hm, h1]

theorem beBytes_one {v : Nat} (h : v < 256) : beBytes 1 v = [v] := by
  rw [beBytes, beBytes, Nat.mod_eq_of_lt h]
  rfl

theorem bytesToHex_length : ∀ bs : List Nat,
    (bytesToHex bs).length = 2 * bs.length
  | [] => rfl
  | b :: bs => by
    have ih := bytesToHex_length bs
    simp only [bytesToHex, String.length, List.map_cons, List.flatten_cons,
      List.length_append, List.length_cons, List.length_nil] at ih ⊢
    omega

/-- C9: when the signer primitive returns 65 bytes r ‖ s ‖ recovery-id
with the recovery id 0 or 1, `eip712_signature` returns a `0x`-prefixed
132-character string encoding r (32 bytes), s (32 bytes) and finally the
recovery id plus 27 (hence 27 or 28); the payload segments are joined in
order before being handed to the signer. -/
theorem eip712_signature_format (signRec : String → B → List Nat)
    (payload : List B) (key : KeyInput)
    (h65 : (signRec (normalizeKey key) (B.cat payload)).length = 65)
    (hb : ∀ b ∈ signRec (normalizeKey key) (B.cat payload), b < 256)
    (hrec : (signRec (normalizeKey key) (B.cat payload)).getD 64 0 = 0 ∨
      (signRec (normalizeKey key) (B.cat payload)).getD 64 0 = 1) :
    eip712_signature signRec payload key =
      some ("0x" ++ bytesToHex
        ((signRec (normalizeKey key) (B.cat payload)).take 32 ++
          ((signRec (normalizeKey key) (B.cat payload)).drop 32).take 32 ++
          [(signRec (normalizeKey key) (B.cat payload)).getD 64 0 + 27])) ∧
    ("0x" ++ bytesToHex
        ((signRec (normalizeKey key) (B.cat payload)).take 32 ++
          ((signRec (normalizeKey key) (B.cat payload)).drop 32).take 32 ++
          [(signRec (normalizeKey key) (B.cat payload)).getD 64 0 + 27])).length
      = 132 ∧
    ("0x" ++ bytesToHex
        ((signRec (normalizeKey key) (B.cat payload)).take 32 ++
          ((signRec (normalizeKey key) (B.cat payload)).drop 32).take 32 ++
          [(signRec (normalizeKey key) (B.cat payload)).getD 64 0 + 27])).data.take 2
      = ['0', 'x'] ∧
    ((signRec (normalizeKey key) (B.cat payload)).getD 64 0 + 27 = 27 ∨
      (signRec (normalizeKey key) (B.cat payload)).getD 64 0 + 27 = 28) := by
  simp only [eip712_signature]
  generalize hsig : signRec (normalizeKey key) (B.cat payload) = sig at *
  have hlt : (sig.take 32).length = 32 := by
    rw [List.length_take, h65]; omega
  have hst : ((sig.drop 32).take 32).length = 32 := by
    rw [List.length_take, List.length_drop, h65]; omega
  have hr_lt : big_endian_to_int (sig.take 32) < 256 ^ 32 := by
    have := big_endian_lt (sig.take 32)
      (fun b hm => hb b (List.mem_of_mem_take hm))
    rwa [hlt] at this
  have hs_lt : big_endian_to_int ((sig.drop 32).take 32) < 256 ^ 32 := by
    have := big_endian_lt ((sig.drop 32).take 32)
      (fun b hm => hb b (List.mem_of_mem_drop (List.mem_of_mem_take hm)))
    rwa [hst] at this
  have hrb : beBytes 32 (big_endian_to_int (sig.take 32)) = sig.take 32 := by
    have := beBytes_big_endian (sig.take 32)
      (fun b hm => hb b (List.mem_of_mem_take hm))
    rwa [hlt] at this
  have hsb : beBytes 32 (big_endian_to_int ((sig.drop 32).take 32)) =
      (sig.drop 32).take 32 := by
    have := beBytes_big_endian ((sig.drop 32).take 32)
      (fun b hm => hb b (List.mem_of_mem_drop (List.mem_of_mem_take hm)))
    rwa [hst] at this
  have hv256 : sig.getD 64 0 + 27 < 256 := by rcases hrec with h | h <;> omega
  have hv256p : sig.getD 64 0 + 27 < 256 ^ 1 := by simpa using hv256
  rw [toBytesBE, toBytesBE, toBytesBE, if_pos hr_lt, if_pos hs_lt,
    if_pos hv256p, hrb, hsb, beBytes_one hv256]
  refine ⟨rfl, ?_, ?_, by rcases hrec with h | h <;> omega⟩
  · rw [String.length_append, bytesToHex_length, List.length_append,
      List.length_append, hlt, hst]
    rfl
  · rw [String.data_append]
    rfl

/-- Witness for C9 with an all-zero r ‖ s and recovery id 1. -/
theorem eip712_signature_format_witness :
    eip712_signature (fun _ _ => List.replicate 64 0 ++ [1]) [B.lit [1, 2]]
        (.hexStr "0x11") =
      some ("0x" ++ bytesToHex (List.replicate 64 0 ++ [28])) ∧
    ("0x" ++ bytesToHex (List.replicate 64 0 ++ [28])).length = 132 := by
  obtain ⟨h1, h2, _, _⟩ := eip712_signature_format
    (fun _ _ => List.replicate 64 0 ++ [1]) [B.lit [1, 2]] (.hexStr "0x11")
    (by decide) (by decide) (Or.inr (by decide))
  exact ⟨h1, h2⟩

/-! ### Fuel adequacy of the struct encoder

The wrapper `encode_data` runs the bounded encoder with fuel
`encodeFuel data types`.  The development below shows this bound is
adequate: the encoder never returns the artificial `Err.fuel` value, so
the bounded embedding agrees with the (always terminating) recursion of
the Python code on every input. -/

mutual

/-- Fuel needed (with slack) to encode a value, given `W` bounds the
length of every field list in the type set. -/
def costV (W : Nat) : Value → Nat
  | .null => 1
  | .str _ => 1
  | .num _ => 1
  | .bool _ => 1
  | .bytes _ => 1
  | .arr vs => 2 + costL W vs
  | .record fs => 2 + W + costR W fs

/-- Fuel needed to encode the elements of an array value. -/
def costL (W : Nat) : ValueList → Nat
  | .nil => 1
  | .cons v rest => 1 + costV W v + costL W rest

/-- Fuel needed to encode the fields of a record value. -/
def costR (W : Nat) : RecordFields → Nat
  | .nil => 1
  | .cons _ v rest => 1 + costV W v + costR W rest

end

theorem costV_pos (W : Nat) (v : Value) : 1 ≤ costV W v := by
  cases v <;> simp [costV] <;> omega

theorem costL_pos (W : Nat) (vs : ValueList) : 1 ≤ costL W vs := by
  cases vs
  · simp [costL]
  · simp only [costL]
    omega

theorem costR_pos (W : Nat) (fs : RecordFields) : 1 ≤ costR W fs := by
  cases fs
  · simp [costR]
  · simp only [costR]
    omega

theorem recLookup_cost (W : Nat) :
    ∀ {fs : RecordFields} {name : String} {v : Value},
      recLookup fs name = some v → costV W v < costR W fs
  | .nil, _, _, h => by cases h
  | .cons k w rest, name, v, h => by
    rw [recLookup] at h
    by_cases hk : k = name
    · rw [if_pos hk] at h
      cases h
      have := costR_pos W rest
      simp only [costR]
      omega
    · rw [if_neg hk] at h
      have h1 := recLookup_cost W h
      have h2 := costV_pos W w
      simp only [costR]
      omega

theorem lookup_length_le_sumFields {types : TypeSet} {p : String}
    {fields : List Field} (h : List.lookup p types = some fields) :
    fields.length ≤ sumFields types := by
  induction types with
  | nil => cases h
  | cons kv rest ih =>
    obtain ⟨k, fs⟩ := kv
    by_cases hpk : p = k
    · have hbk : (p == k) = true := beq_iff_eq.mpr hpk
      simp only [List.lookup, hbk] at h
      cases h
      simp only [sumFields]
      omega
    · have hbk : (p == k) = false := beq_eq_false_iff_ne.mpr hpk
      simp only [List.lookup, hbk] at h
      have := ih h
      simp only [sumFields]
      omega

mutual

theorem costV_le (W : Nat) : ∀ v : Value, costV W v ≤ vsize v * (W + 3)
  | .null => by simp only [costV, vsize, Nat.one_mul]; omega
  | .str _ => by simp only [costV, vsize, Nat.one_mul]; omega
  | .num _ => by simp only [costV, vsize, Nat.one_mul]; omega
  | .bool _ => by simp only [costV, vsize, Nat.one_mul]; omega
  | .bytes _ => by simp only [costV, vsize, Nat.one_mul]; omega
  | .arr vs => by
    have := costL_le W vs
    simp only [costV, vsize, Nat.add_mul, Nat.one_mul]
    omega
  | .record fs => by
    have := costR_le W fs
    simp only [costV, vsize, Nat.add_mul, Nat.one_mul]
    omega

theorem costL_le (W : Nat) : ∀ vs : ValueList, costL W vs ≤ vsizeL vs * (W + 3)
  | .nil => by simp only [costL, vsizeL, Nat.one_mul]; omega
  | .cons v rest => by
    have h1 := costV_le W v
    have h2 := costL_le W rest
    simp only [costL, vsizeL, Nat.add_mul, Nat.one_mul]
    omega

theorem costR_le (W : Nat) : ∀ fs : RecordFields, costR W fs ≤ vsizeR fs * (W + 3)
  | .nil => by simp only [costR, vsizeR, Nat.one_mul]; omega
  | .cons _ v rest => by
    have h1 := costV_le W v
    have h2 := costR_le W rest
    simp only [costR, vsizeR, Nat.add_mul, Nat.one_mul]
    omega

end

theorem encodeTypeLoop_no_fuel {types : TypeSet} :
    ∀ {l : List String} {e : Err}, encodeTypeLoop types l = .error e →
      e ≠ .fuel
  | [], e, h => by cases h
  | typ :: rest, e, h => by
    simp only [encodeTypeLoop] at h
    split at h
    · cases h; simp
    · split at h
      · cases h; simp
      · cases hres : encodeTypeLoop types rest with
        | error e2 =>
          rw [hres] at h
          cases h
          exact encodeTypeLoop_no_fuel hres
        | ok r => rw [hres] at h; cases h

theorem hash_type_no_fuel {primary : String} {types : TypeSet} {e : Err}
    (h : hash_type primary types = .error e) : e ≠ .fuel := by
  simp only [hash_type, encode_type] at h
  cases hres : encodeTypeLoop types (primary :: List.insertionSort pyStrLe
      ((find_type_dependencies primary types).filter (fun d => d ≠ primary))) with
  | error e2 =>
    rw [hres] at h
    cases h
    exact encodeTypeLoop_no_fuel hres
  | ok r => rw [hres] at h; cases h

theorem intStrConvert_no_fuel {t : String} {v : B} {e : Err}
    (h : intStrConvert t v = .error e) : e ≠ .fuel := by
  simp only [intStrConvert] at h
  split at h
  · split at h
    · split at h
      · cases h
      · cases h; simp
    · cases h
  · cases h

/-- Simultaneous fuel-adequacy statement for the four encoder functions:
with fuel at least the cost of the value being encoded, none of them
ever returns the artificial fuel-exhaustion error. -/
theorem encoderNoFuel (types : TypeSet) :
    ∀ f : Nat,
      (∀ primary v,
        2 + (sumFields types + 1) + costV (sumFields types + 1) v ≤ f →
        encodeDataF types f primary v ≠ .error .fuel) ∧
      (∀ fs fields,
        fields.length + 4 + (sumFields types + 1) +
          costR (sumFields types + 1) fs ≤ f →
        encodeFieldsF types f fs fields ≠ .error .fuel) ∧
      (∀ name typ v,
        3 + (sumFields types + 1) + costV (sumFields types + 1) v ≤ f →
        encodeFieldF types f name typ v ≠ .error .fuel) ∧
      (∀ name ptyp vs,
        3 + (sumFields types + 1) + costL (sumFields types + 1) vs ≤ f →
        encodeElemsF types f name ptyp vs ≠ .error .fuel)
  | 0 => by
    refine ⟨?_, ?_, ?_, ?_⟩
    · intro primary v h
      exact absurd h (by have := costV_pos (sumFields types + 1) v; omega)
    · intro fs fields h
      exact absurd h (by have := costR_pos (sumFields types + 1) fs; omega)
    · intro name typ v h
      exact absurd h (by have := costV_pos (sumFields types + 1) v; omega)
    · intro name ptyp vs h
      exact absurd h (by have := costL_pos (sumFields types + 1) vs; omega)
  | f + 1 => by
    obtain ⟨ihD, ihFs, ihF, ihE⟩ := encoderNoFuel types f
    refine ⟨?_, ?_, ?_, ?_⟩
    · -- encodeDataF
      intro primary v h
      cases hht : hash_type primary types with
      | error e =>
        have he := hash_type_no_fuel hht
        cases v <;> simp [encodeDataF, hht, he]
      | ok th =>
        cases hlp : List.lookup primary types with
        | none => cases v <;> simp [encodeDataF, hht, hlp]
        | some fields =>
          cases v with
          | record fs =>
            cases hfs : encodeFieldsF types f fs fields with
            | error e =>
              have hlen := lookup_length_le_sumFields hlp
              simp only [costV] at h
              have hne := ihFs fs fields (by omega)
              have he : e ≠ Err.fuel := fun hef => hne (by rw [hfs, hef])
              simp [encodeDataF, hht, hlp, hfs, he]
            | ok ps => simp [encodeDataF, hht, hlp, hfs]
          | null => simp [encodeDataF, hht, hlp]
          | str s => simp [encodeDataF, hht, hlp]
          | num n => simp [encodeDataF, hht, hlp]
          | bool b => simp [encodeDataF, hht, hlp]
          | bytes bs => simp [encodeDataF, hht, hlp]
          | arr vs => simp [encodeDataF, hht, hlp]
    · -- encodeFieldsF
      intro fs fields h
      cases fields with
      | nil => simp [encodeFieldsF]
      | cons fd rest =>
        rw [encodeFieldsF]
        simp only [List.length_cons] at h
        cases hlv : recLookup fs fd.name with
        | none => simp [hlv]
        | some v =>
          have hcost := recLookup_cost (sumFields types + 1) hlv
          cases hF : encodeFieldF types f fd.name fd.type v with
          | error e =>
            have hne := ihF fd.name fd.type v (by omega)
            have he : e ≠ Err.fuel := fun hef => hne (by rw [hF, hef])
            simp [hlv, hF, he]
          | ok p =>
            obtain ⟨t, ev⟩ := p
            cases hI : intStrConvert t ev with
            | error e =>
              have he := intStrConvert_no_fuel hI
              simp [hlv, hF, hI, he]
            | ok ev2 =>
              cases hRest : encodeFieldsF types f fs rest with
              | error e =>
                have hne := ihFs fs rest (by omega)
                have he : e ≠ Err.fuel := fun hef => hne (by rw [hRest, hef])
                simp [hlv, hF, hI, hRest, he]
              | ok ps => simp [hlv, hF, hI, hRest]
    · -- encodeFieldF
      intro name typ v h
      by_cases hcomp : (List.lookup typ types).isSome = true
      · cases v with
        | null => simp [encodeFieldF, hcomp]
        | str s =>
          cases hD : encodeDataF types f typ (.str s) with
          | error e =>
            have hne := ihD typ (.str s) (by omega)
            have he : e ≠ Err.fuel := fun hef => hne (by rw [hD, hef])
            simp [encodeFieldF, hcomp, hD, he]
          | ok eb => simp [encodeFieldF, hcomp, hD]
        | num n =>
          cases hD : encodeDataF types f typ (.num n) with
          | error e =>
            have hne := ihD typ (.num n) (by omega)
            have he : e ≠ Err.fuel := fun hef => hne (by rw [hD, hef])
            simp [encodeFieldF, hcomp, hD, he]
          | ok eb => simp [encodeFieldF, hcomp, hD]
        | bool b =>
          cases hD : encodeDataF types f typ (.bool b) with
          | error e =>
            have hne := ihD typ (.bool b) (by omega)
            have he : e ≠ Err.fuel := fun hef => hne (by rw [hD, hef])
            simp [encodeFieldF, hcomp, hD, he]
          | ok eb => simp [encodeFieldF, hcomp, hD]
        | bytes bs =>
          cases hD : encodeDataF types f typ (.bytes bs) with
          | error e =>
            have hne := ihD typ (.bytes bs) (by omega)
            have he : e ≠ Err.fuel := fun hef => hne (by rw [hD, hef])
            simp [encodeFieldF, hcomp, hD, he]
          | ok eb => simp [encodeFieldF, hcomp, hD]
        | arr vs =>
          cases hD : encodeDataF types f typ (.arr vs) with
          | error e =>
            have hne := ihD typ (.arr vs) (by omega)
            have he : e ≠ Err.fuel := fun hef => hne (by rw [hD, hef])
            simp [encodeFieldF, hcomp, hD, he]
          | ok eb => simp [encodeFieldF, hcomp, hD]
        | record fs =>
          cases hD : encodeDataF types f typ (.record fs) with
          | error e =>
            have hne := ihD typ (.record fs) (by omega)
            have he : e ≠ Err.fuel := fun hef => hne (by rw [hD, hef])
            simp [encodeFieldF, hcomp, hD, he]
          | ok eb => simp [encodeFieldF, hcomp, hD]
      · cases v with
        | null => simp [encodeFieldF, hcomp]
        | str s =>
          simp only [encodeFieldF]
          rw [if_neg hcomp]
          split_ifs <;> simp
        | num n =>
          simp only [encodeFieldF]
          rw [if_neg hcomp]
          split_ifs <;> simp
        | bool b =>
          simp only [encodeFieldF]
          rw [if_neg hcomp]
          split_ifs <;> simp
        | bytes bs =>
          simp only [encodeFieldF]
          rw [if_neg hcomp]
          split_ifs <;> simp
        | record fs =>
          simp only [encodeFieldF]
          rw [if_neg hcomp]
          split_ifs <;> simp
        | arr vs =>
          simp only [encodeFieldF]
          rw [if_neg hcomp]
          split_ifs with h1 h2 h3
          · simp
          · simp
          · simp only [costV] at h
            cases hE : encodeElemsF types f name (pyDropLast2 typ) vs with
            | error e =>
              have hne := ihE name (pyDropLast2 typ) vs (by omega)
              have he : e ≠ Err.fuel := fun hef => hne (by rw [hE, hef])
              simp [hE, he]
            | ok ps => simp [hE]
          · simp
    · -- encodeElemsF
      intro name ptyp vs h
      cases vs with
      | nil => simp [encodeElemsF]
      | cons v rest =>
        rw [encodeElemsF]
        simp only [costL] at h
        cases hF : encodeFieldF types f name ptyp v with
        | error e =>
          have hp := costL_pos (sumFields types + 1) rest
          have hne := ihF name ptyp v (by omega)
          have he : e ≠ Err.fuel := fun hef => hne (by rw [hF, hef])
          simp [hF, he]
        | ok p =>
          cases hR : encodeElemsF types f name ptyp rest with
          | error e =>
            have hp := costV_pos (sumFields types + 1) v
            have hne := ihE name ptyp rest (by omega)
            have he : e ≠ Err.fuel := fun hef => hne (by rw [hR, hef])
            simp [hF, hR, he]
          | ok ps => simp [hF, hR]

/-- The fuel bound `encodeFuel` used by the `encode_data` wrapper is
adequate: the bounded encoder never reports fuel exhaustion, on any
input.  (Together with the monotone structure of the recursion this
means the embedding computes exactly what the Python recursion
computes.) -/
theorem encode_data_no_fuel_error (primary : String) (data : Value)
    (types : TypeSet) : encode_data primary data types ≠ .error .fuel := by
  have hle := costV_le (sumFields types + 1) data
  have hpos : 1 ≤ vsize data := by
    cases data <;> simp [vsize]
  have hexp : encodeFuel data types =
      vsize data * vsize data + vsize data * sumFields types +
        10 * vsize data + 2 * sumFields types + 16 := by
    simp only [encodeFuel]
    ring
  have hmul : vsize data * (sumFields types + 1 + 3) =
      vsize data * sumFields types + 4 * vsize data := by ring
  apply (encoderNoFuel types (encodeFuel data types)).1
  rw [hmul] at hle
  have hsq : vsize data ≤ vsize data * vsize data :=
    Nat.le_mul_of_pos_left _ hpos
  omega

end EIP712
